import Mathlib

/-!
Verification of the TSP example of the darwin-rs repository
(src/examples/tsp2/src/main.rs).  The Rust functions are embedded
shallowly: the path genome is a `List ℕ`, city coordinates are a
`List (ℝ × ℝ)`, the random draws of `mutate` (two indices and the
operator) are explicit parameters constrained by the contract of
`rand::Rng::gen_range`, and the `&mut self` methods are state-passing
functions returning the updated `CityItem`.
-/

/-- Euclidean distance between the cities at `index1` and `index2`
(Rust `city_distance`, which uses `f64::hypot`). -/
noncomputable def city_distance (city : List (ℝ × ℝ)) (index1 index2 : ℕ) : ℝ :=
  Real.sqrt (((city.getD index2 (0, 0)).1 - (city.getD index1 (0, 0)).1) ^ 2 +
    ((city.getD index2 (0, 0)).2 - (city.getD index1 (0, 0)).2) ^ 2)

/-- The TSP individual: a path genome and the shared city coordinates
(Rust `struct CityItem`). -/
structure CityItem where
  path : List ℕ
  cities : List (ℝ × ℝ)

/-- Contract of `rand::Rng::gen_range(low, high)`: the drawn value lies in
the half-open interval `[low, high)`. -/
def gen_range_ok (low high x : ℕ) : Prop := low ≤ x ∧ x < high

/-- Precondition of `rand::Rng::gen_range(low, high)`: the range must be
nonempty, otherwise the call panics. -/
def gen_range_nonempty (low high : ℕ) : Prop := low < high

instance (low high x : ℕ) : Decidable (gen_range_ok low high x) := by
  unfold gen_range_ok; infer_instance

instance (low high : ℕ) : Decidable (gen_range_nonempty low high) := by
  unfold gen_range_nonempty; infer_instance

/-- The body of the `match operation` in Rust `CityItem::mutate`, acting on
the path: operation 0 swaps the entries at `index1` and `index2`
(`Vec::swap`), operation 1 removes the entry at `index1` and re-inserts it
at `index2` (`Vec::remove` then `Vec::insert`), operation 2 is an empty
arm, and the fallback arm only prints. -/
def mutatePath (path : List ℕ) (index1 index2 : ℕ) (operation : ℕ) : List ℕ :=
  match operation with
  | 0 => (path.set index1 (path.getD index2 0)).set index2 (path.getD index1 0)
  | 1 => List.insertIdx index2 (path.getD index1 0) (path.eraseIdx index1)
  | 2 => path
  | _ => path

/-- Rust `CityItem::mutate` with the three random draws made explicit:
`index1` and `index2` are drawn from `gen_range(1, cities.len())` (with
`index2` re-drawn until it differs from `index1`) and `operation` from
`gen_range(0, 2)`. -/
def CityItem.mutate (c : CityItem) (index1 index2 operation : ℕ) : CityItem :=
  ⟨mutatePath c.path index1 index2 operation, c.cities⟩

/-- Fuel-indexed run of the re-draw loop `while index1 == index2` in Rust
`CityItem::mutate`: draw `s k`, `s (k+1)`, ... until a draw differs from
`index1`; `none` means the fuel ran out before the loop exited. -/
def index2_loop (s : ℕ → ℕ) (index1 : ℕ) : ℕ → ℕ → Option ℕ
  | 0, _ => none
  | fuel + 1, k => if s k = index1 then index2_loop s index1 fuel (k + 1) else some (s k)

/-- A random stream is eventually constant when from some point on every
draw is the same value. -/
def eventually_const (s : ℕ → ℕ) : Prop := ∃ N c, ∀ k, N ≤ k → s k = c

/-- Rust `CityItem::calculate_fitness`: fold over the path accumulating
`length += city_distance(cities, prev_index, index)` with `prev_index`
initialised to `cities.len() - 1`.  The method takes `&mut self` but never
writes to `self`, so the embedding returns the unchanged item alongside
the value. -/
noncomputable def CityItem.calculate_fitness (c : CityItem) : ℝ × CityItem :=
  ((c.path.foldl (fun st index => (st.1 + city_distance c.cities st.2 index, index))
    ((0 : ℝ), c.cities.length - 1)).1, c)

/-- Rust `CityItem::reset`: the path becomes `0, 1, ..., n-1` with the
start position 0 appended. -/
def CityItem.reset (c : CityItem) : CityItem :=
  ⟨List.range c.cities.length ++ [0], c.cities⟩

/-- Rust `make_population`: `count` individuals, each with the initial
path `0, 1, ..., n-1, 0` and the shared city list. -/
def make_population (count : ℕ) (cities : List (ℝ × ℝ)) : List CityItem :=
  List.replicate count ⟨List.range cities.length ++ [0], cities⟩

/-- Rust iterator chain `iter.cycle().take(n).collect()`: element `k` of
the result is element `k mod length` of the cycled list. -/
def cycle_take (l : List ℕ) (n : ℕ) : List ℕ :=
  (List.range n).filterMap (fun k => l[k % l.length]?)

/-- The population configuration assembled by `PopulationBuilder` in Rust
`make_all_populations`. -/
structure Population where
  id : ℕ
  initial_population : List CityItem
  mutation_rate : List ℕ
  reset_limit_start : ℕ
  reset_limit_increment : ℕ
  reset_limit_end : ℕ

/-- Rust `make_all_populations`: for `i` in `1..populations+1`, a
population with id `i`, the shared initial population, mutation rates
`(1..10).cycle().take(individuals)`, and reset limits
`start = increment = 100*i`, `end = 1000*i`. -/
def make_all_populations (individuals populations : ℕ) (cities : List (ℝ × ℝ)) :
    List Population :=
  (List.range' 1 populations).map (fun i =>
    ⟨i, make_population individuals cities, cycle_take (List.range' 1 9) individuals,
      100 * i, 100 * i, 1000 * i⟩)

/-- Modelled from the spec: the darwin-rs engine (the `darwin_rs` crate is
not under src, only this example that calls it).  Per the spec, each
individual's current reset limit starts at `reset_limit_start` and
escalates by `reset_limit_increment` each time a reset fires, capped at
`reset_limit_end`. -/
def resetLimitSeq (start inc stop : ℕ) : ℕ → ℕ
  | 0 => start
  | k + 1 => min (resetLimitSeq start inc stop k + inc) stop

/-- Invariant of a TSP path over `n` cities: length `n + 1`, the fixed
city 0 at the first and at the last position, and the first `n` entries a
permutation of all city indices `0, ..., n-1`. -/
def pathInv (n : ℕ) (p : List ℕ) : Prop :=
  p.length = n + 1 ∧ p[0]? = some 0 ∧ p[n]? = some 0 ∧
    List.Perm p.dropLast (List.range n)

instance (n : ℕ) (p : List ℕ) : Decidable (pathInv n p) := by
  unfold pathInv; infer_instance

/-- Tour length exactly as the spec sentence for `calculate_fitness`
describes it: the sum of the distances between consecutive path entries,
with no additional edge. -/
noncomputable def spec_tour_length (cities : List (ℝ × ℝ)) : List ℕ → ℝ
  | a :: b :: rest => city_distance cities a b + spec_tour_length cities (b :: rest)
  | _ => 0

/-- Tour length of a path walked from a given previous city; mirrors the
accumulating loop of `calculate_fitness`. -/
noncomputable def tour_from (cities : List (ℝ × ℝ)) (prev : ℕ) : List ℕ → ℝ
  | [] => 0
  | index :: rest => city_distance cities prev index + tour_from cities index rest

/-- Replacing the entry at `j` by `x` and moving the old entry to the
front is a permutation of putting `x` in front. -/
theorem swap_cons_perm (xs : List ℕ) : ∀ (j x : ℕ), j < xs.length →
    List.Perm (xs.getD j 0 :: xs.set j x) (x :: xs) := by
  induction xs with
  | nil => intro j x h; simp at h
  | cons y ys ih =>
    intro j x h
    cases j with
    | zero => simpa using List.Perm.swap x y ys
    | succ m =>
      simp only [List.getD_cons_succ, List.set_cons_succ]
      exact (List.Perm.swap y _ _).trans
        (((ih m x (by simpa using h)).cons y).trans (List.Perm.swap x y ys))

/-- The two `List.set` calls embedding `Vec::swap` permute the list. -/
theorem set_set_perm (p : List ℕ) : ∀ (i j : ℕ), i < p.length → j < p.length →
    List.Perm ((p.set i (p.getD j 0)).set j (p.getD i 0)) p := by
  induction p with
  | nil => intro i j h _; simp at h
  | cons a as ih =>
    intro i j hi hj
    cases i with
    | zero =>
      cases j with
      | zero => simp
      | succ m =>
        simp only [List.getD_cons_zero, List.getD_cons_succ, List.set_cons_zero,
          List.set_cons_succ]
        exact swap_cons_perm as m a (by simpa using hj)
    | succ k =>
      cases j with
      | zero =>
        simp only [List.getD_cons_zero, List.getD_cons_succ, List.set_cons_zero,
          List.set_cons_succ]
        exact swap_cons_perm as k a (by simpa using hi)
      | succ m =>
        simp only [List.getD_cons_succ, List.set_cons_succ]
        exact (ih k m (by simpa using hi) (by simpa using hj)).cons a

/-- A list is a permutation of its erased version with the erased entry
put in front (embedding of `Vec::remove`). -/
theorem eraseIdx_cons_perm (p : List ℕ) : ∀ (i : ℕ), i < p.length →
    List.Perm p (p.getD i 0 :: p.eraseIdx i) := by
  induction p with
  | nil => intro i h; simp at h
  | cons a as ih =>
    intro i hi
    cases i with
    | zero => simp
    | succ k =>
      simp only [List.getD_cons_succ, List.eraseIdx_cons_succ]
      exact ((ih k (by simpa using hi)).cons a).trans (List.Perm.swap _ a _)

/-- Entries after an erased index shift down by one. -/
theorem eraseIdx_getElem?_ge (p : List ℕ) : ∀ (i k : ℕ), i ≤ k →
    (p.eraseIdx i)[k]? = p[k + 1]? := by
  induction p with
  | nil => intro i k _; simp
  | cons a as ih =>
    intro i k h
    cases i with
    | zero => simp
    | succ m =>
      cases k with
      | zero => exact absurd h (by omega)
      | succ k2 =>
        simp only [List.eraseIdx_cons_succ, List.getElem?_cons_succ]
        exact ih m k2 (by omega)

/-- Entries before an erased index are unchanged. -/
theorem eraseIdx_getElem?_lt (p : List ℕ) : ∀ (i k : ℕ), k < i →
    (p.eraseIdx i)[k]? = p[k]? := by
  induction p with
  | nil => intro i k _; simp
  | cons a as ih =>
    intro i k h
    cases i with
    | zero => exact absurd h (by omega)
    | succ m =>
      cases k with
      | zero => simp
      | succ k2 =>
        simp only [List.eraseIdx_cons_succ, List.getElem?_cons_succ]
        exact ih m k2 (by omega)

/-- Entries before an inserted index are unchanged. -/
theorem insertIdx_getElem?_lt (q : List ℕ) : ∀ (j x k : ℕ), k < j →
    (List.insertIdx j x q)[k]? = q[k]? := by
  induction q with
  | nil =>
    intro j x k h
    cases j with
    | zero => exact absurd h (by omega)
    | succ m => simp
  | cons a as ih =>
    intro j x k h
    cases j with
    | zero => exact absurd h (by omega)
    | succ m =>
      cases k with
      | zero => simp
      | succ k2 =>
        simp only [List.insertIdx_succ_cons, List.getElem?_cons_succ]
        exact ih m x k2 (by omega)

/-- The inserted entry sits at the insertion index. -/
theorem insertIdx_getElem?_self (q : List ℕ) : ∀ (j x : ℕ), j ≤ q.length →
    (List.insertIdx j x q)[j]? = some x := by
  induction q with
  | nil =>
    intro j x h
    cases j with
    | zero => simp
    | succ m => simp at h
  | cons a as ih =>
    intro j x h
    cases j with
    | zero => simp
    | succ m =>
      simp only [List.insertIdx_succ_cons, List.getElem?_cons_succ]
      exact ih m x (by simpa using h)

/-- Entries at or after an inserted index shift up by one. -/
theorem insertIdx_getElem?_succ_ge (q : List ℕ) : ∀ (j x k : ℕ), j ≤ k →
    (List.insertIdx j x q)[k + 1]? = q[k]? := by
  induction q with
  | nil =>
    intro j x k _
    cases j with
    | zero => simp
    | succ m => simp
  | cons a as ih =>
    intro j x k h
    cases j with
    | zero => simp
    | succ m =>
      cases k with
      | zero => exact absurd h (by omega)
      | succ k2 =>
        simp only [List.insertIdx_succ_cons, List.getElem?_cons_succ]
        exact ih m x k2 (by omega)

/-- Every arm of the mutate match permutes the path. -/
theorem mutatePath_perm (p : List ℕ) (i j op : ℕ) (hi : i < p.length)
    (hj1 : j + 1 < p.length) :
    List.Perm (mutatePath p i j op) p := by
  rcases op with _ | _ | _ | op
  · exact set_set_perm p i j hi (by omega)
  · refine (List.perm_insertIdx _ _ ?_).trans (eraseIdx_cons_perm p i hi).symm
    rw [List.length_eraseIdx]
    simp only [hi, if_pos]
    omega
  · exact List.Perm.refl _
  · exact List.Perm.refl _

/-- Every arm of the mutate match leaves the first entry unchanged when
both indices avoid position 0. -/
theorem mutatePath_getElem?_zero (p : List ℕ) (i j op : ℕ) (hi : 1 ≤ i) (hj : 1 ≤ j) :
    (mutatePath p i j op)[0]? = p[0]? := by
  rcases op with _ | _ | _ | op
  · show ((p.set i _).set j _)[0]? = p[0]?
    rw [List.getElem?_set_ne (by omega), List.getElem?_set_ne (by omega)]
  · show (List.insertIdx j _ (p.eraseIdx i))[0]? = p[0]?
    rw [insertIdx_getElem?_lt _ _ _ _ (by omega), eraseIdx_getElem?_lt _ _ _ (by omega)]
  · rfl
  · rfl

/-- Every arm of the mutate match leaves the last entry unchanged when
both indices lie strictly inside the path. -/
theorem mutatePath_getElem?_last (p : List ℕ) (n i j op : ℕ) (hlen : p.length = n + 1)
    (hi1 : 1 ≤ i) (hi2 : i < n) (hj2 : j < n) :
    (mutatePath p i j op)[n]? = p[n]? := by
  rcases op with _ | _ | _ | op
  · show ((p.set i _).set j _)[n]? = p[n]?
    rw [List.getElem?_set_ne (by omega), List.getElem?_set_ne (by omega)]
  · show (List.insertIdx j _ (p.eraseIdx i))[n]? = p[n]?
    obtain ⟨m, rfl⟩ : ∃ m, n = m + 1 := ⟨n - 1, by omega⟩
    rw [insertIdx_getElem?_succ_ge _ _ _ _ (by omega),
      eraseIdx_getElem?_ge _ _ _ (by omega)]
  · rfl
  · rfl

/-- Every arm of the mutate match preserves the path length when both
indices lie strictly inside the path. -/
theorem mutatePath_length (p : List ℕ) (n i j op : ℕ) (hlen : p.length = n + 1)
    (hi2 : i < n) (hj2 : j < n) :
    (mutatePath p i j op).length = p.length := by
  rcases op with _ | _ | _ | op
  · show ((p.set i _).set j _).length = p.length
    simp
  · show (List.insertIdx j _ (p.eraseIdx i)).length = p.length
    have he : (p.eraseIdx i).length = n := by
      rw [List.length_eraseIdx]
      simp only [show i < p.length by omega, if_pos]
      omega
    rw [List.length_insertIdx _ _ (by omega), he, hlen]
  · rfl
  · rfl

/-- A list of length `n + 1` whose entry at `n` is 0 splits as its
dropLast followed by `[0]`. -/
theorem eq_dropLast_append (p : List ℕ) (n : ℕ) (hlen : p.length = n + 1)
    (hn : p[n]? = some 0) : p = p.dropLast ++ [0] := by
  refine (List.dropLast_append_getLast? 0 ?_).symm
  rw [List.getLast?_eq_getElem?, hlen]
  simpa using hn

/-- The path invariant is preserved by every arm of the mutate match when
both indices are drawn from `[1, n)`. -/
theorem mutatePath_pathInv (n : ℕ) (p : List ℕ) (i j op : ℕ)
    (hi1 : 1 ≤ i) (hi2 : i < n) (hj1 : 1 ≤ j) (hj2 : j < n)
    (hp : pathInv n p) : pathInv n (mutatePath p i j op) := by
  obtain ⟨hlen, h0, hn, hperm⟩ := hp
  have hpm : List.Perm (mutatePath p i j op) p :=
    mutatePath_perm p i j op (by omega) (by omega)
  have hlen2 : (mutatePath p i j op).length = n + 1 :=
    (mutatePath_length p n i j op hlen hi2 hj2).trans hlen
  have hlast2 : (mutatePath p i j op)[n]? = some 0 :=
    (mutatePath_getElem?_last p n i j op hlen hi1 hi2 hj2).trans hn
  refine ⟨hlen2, (mutatePath_getElem?_zero p i j op hi1 hj1).trans h0, hlast2, ?_⟩
  have e1 : mutatePath p i j op = (mutatePath p i j op).dropLast ++ [0] :=
    eq_dropLast_append _ n hlen2 hlast2
  have e2 : p = p.dropLast ++ [0] := eq_dropLast_append _ n hlen hn
  have hpm2 : List.Perm ((mutatePath p i j op).dropLast ++ [0]) (p.dropLast ++ [0]) := by
    rw [← e1, ← e2]; exact hpm
  exact ((List.perm_append_right_iff [0]).mp hpm2).trans hperm

/-- C1: for a `CityItem` whose path is a permutation of all city indices
with 0 fixed at both ends (length `n + 1`), any `mutate()` call — indices
drawn from `gen_range(1, n)`, any operation — keeps the path such a
permutation, with 0 still at position 0 and at the last position and the
length still `n + 1`. -/
theorem mutate_preserves_path_invariant (c : CityItem) (index1 index2 operation : ℕ)
    (h1 : gen_range_ok 1 c.cities.length index1)
    (h2 : gen_range_ok 1 c.cities.length index2)
    (hp : pathInv c.cities.length c.path) :
    pathInv c.cities.length (c.mutate index1 index2 operation).path :=
  mutatePath_pathInv c.cities.length c.path index1 index2 operation
    h1.1 h1.2 h2.1 h2.2 hp

/-- Witness for C1 at a concrete three-city item and the shift operation. -/
theorem mutate_preserves_path_invariant_witness :
    gen_range_ok 1 3 1 ∧ gen_range_ok 1 3 2 ∧ pathInv 3 [0, 1, 2, 0] ∧
    pathInv 3 ((CityItem.mk [0, 1, 2, 0]
      [((0 : ℝ), (0 : ℝ)), ((1 : ℝ), (0 : ℝ)), ((0 : ℝ), (1 : ℝ))]).mutate 1 2 1).path :=
  ⟨by decide, by decide, by decide,
    mutate_preserves_path_invariant
      (CityItem.mk [0, 1, 2, 0] [((0 : ℝ), (0 : ℝ)), ((1 : ℝ), (0 : ℝ)), ((0 : ℝ), (1 : ℝ))])
      1 2 1 (by decide) (by decide) (by decide)⟩

/-- Two distinct interior positions of an invariant path hold distinct
city indices. -/
theorem pathInv_interior_ne (n : ℕ) (p : List ℕ) (hp : pathInv n p)
    (a b : ℕ) (ha : a < n) (hb : b < n) (hab : a ≠ b) : p[a]? ≠ p[b]? := by
  obtain ⟨hlen, _, _, hperm⟩ := hp
  have hnd : p.dropLast.Nodup := hperm.symm.nodup (List.nodup_range n)
  have hdl : p.dropLast.length = n := by
    rw [List.length_dropLast, hlen]
    omega
  have ha2 : a < p.dropLast.length := by omega
  have hb2 : b < p.dropLast.length := by omega
  have ha3 : a < p.length := by omega
  have hb3 : b < p.length := by omega
  rw [List.getElem?_eq_getElem ha3, List.getElem?_eq_getElem hb3]
  intro hcon
  have hcon2 : p.dropLast[a] = p.dropLast[b] := by
    rw [List.getElem_dropLast, List.getElem_dropLast]
    exact Option.some_injective _ hcon
  exact hab ((hnd.getElem_inj_iff).mp hcon2)

/-- Both implemented operators strictly change an invariant path when the
two interior indices are distinct. -/
theorem mutatePath_ne (n : ℕ) (p : List ℕ) (i j op : ℕ)
    (hi1 : 1 ≤ i) (hi2 : i < n) (hj1 : 1 ≤ j) (hj2 : j < n)
    (hij : i ≠ j) (hop : op < 2) (hp : pathInv n p) :
    mutatePath p i j op ≠ p := by
  have hlen : p.length = n + 1 := hp.1
  rcases op with _ | _ | _ | op
  · -- swap: the entry at i becomes the old entry at j
    have hL : (mutatePath p i j 0)[i]? = p[j]? := by
      show ((p.set i (p.getD j 0)).set j _)[i]? = p[j]?
      rw [List.getElem?_set_ne (by omega), List.getElem?_set_eq_of_lt _ (by omega),
        List.getD_eq_getElem p 0 (by omega), List.getElem?_eq_getElem (by omega)]
    intro hcon
    exact pathInv_interior_ne n p hp j i hj2 hi2 (by omega)
      (by rw [← hL, hcon])
  · -- shift: compare at position i when i < j, at position j when j < i
    rcases Nat.lt_or_ge i j with hlt | hge
    · have hL : (mutatePath p i j 1)[i]? = p[i + 1]? := by
        show (List.insertIdx j _ (p.eraseIdx i))[i]? = p[i + 1]?
        rw [insertIdx_getElem?_lt _ _ _ _ (by omega), eraseIdx_getElem?_ge _ _ _ (by omega)]
      intro hcon
      exact pathInv_interior_ne n p hp (i + 1) i (by omega) hi2 (by omega)
        (by rw [← hL, hcon])
    · have hje : j ≤ (p.eraseIdx i).length := by
        rw [List.length_eraseIdx]
        simp only [show i < p.length by omega, if_pos]
        omega
      have hL : (mutatePath p i j 1)[j]? = p[i]? := by
        show (List.insertIdx j (p.getD i 0) (p.eraseIdx i))[j]? = p[i]?
        rw [insertIdx_getElem?_self _ _ _ hje,
          List.getD_eq_getElem p 0 (by omega), List.getElem?_eq_getElem (by omega)]
      intro hcon
      exact pathInv_interior_ne n p hp i j hi2 hj2 (by omega)
        (by rw [← hL, hcon])
  · omega
  · omega

/-- C10: with at least 3 cities, an invariant path, two distinct interior
indices and an operator drawn from `gen_range(0, 2)`, every `mutate()`
call produces a path different from the input. -/
theorem mutate_changes_path (c : CityItem) (index1 index2 operation : ℕ)
    (hn : 3 ≤ c.cities.length)
    (h1 : gen_range_ok 1 c.cities.length index1)
    (h2 : gen_range_ok 1 c.cities.length index2)
    (hne : index1 ≠ index2)
    (hop : gen_range_ok 0 2 operation)
    (hp : pathInv c.cities.length c.path) :
    (c.mutate index1 index2 operation).path ≠ c.path :=
  mutatePath_ne c.cities.length c.path index1 index2 operation
    h1.1 h1.2 h2.1 h2.2 hne hop.2 hp

/-- Witness for C10 at a concrete three-city item and the swap operation. -/
theorem mutate_changes_path_witness :
    3 ≤ 3 ∧ gen_range_ok 1 3 1 ∧ gen_range_ok 1 3 2 ∧ (1 : ℕ) ≠ 2 ∧
    gen_range_ok 0 2 0 ∧ pathInv 3 [0, 1, 2, 0] ∧
    ((CityItem.mk [0, 1, 2, 0]
      [((0 : ℝ), (0 : ℝ)), ((1 : ℝ), (0 : ℝ)), ((0 : ℝ), (1 : ℝ))]).mutate 1 2 0).path ≠
      [0, 1, 2, 0] :=
  ⟨by omega, by decide, by decide, by decide, by decide, by decide,
    mutate_changes_path
      (CityItem.mk [0, 1, 2, 0] [((0 : ℝ), (0 : ℝ)), ((1 : ℝ), (0 : ℝ)), ((0 : ℝ), (1 : ℝ))])
      1 2 0 (by decide) (by decide) (by decide) (by decide) (by decide) (by decide)⟩

/-- C4: the operator is drawn from `gen_range(0, 2)`, so every `mutate()`
call lands in exactly one of the two implemented arms — swap for 0,
remove/insert for 1 — and the empty arm for 2 and the unknown-operator
fallback arm are never taken. -/
theorem mutate_operator_dispatch (p : List ℕ) (index1 index2 operation : ℕ)
    (hop : gen_range_ok 0 2 operation) :
    (operation = 0 ∨ operation = 1) ∧
    (operation = 0 → mutatePath p index1 index2 operation =
      (p.set index1 (p.getD index2 0)).set index2 (p.getD index1 0)) ∧
    (operation = 1 → mutatePath p index1 index2 operation =
      List.insertIdx index2 (p.getD index1 0) (p.eraseIdx index1)) := by
  obtain ⟨-, h2⟩ := hop
  refine ⟨by omega, ?_, ?_⟩
  · rintro rfl; rfl
  · rintro rfl; rfl

/-- Witness for C4 at operator 0. -/
theorem mutate_operator_dispatch_witness :
    gen_range_ok 0 2 0 ∧
    ((0 = 0 ∨ 0 = 1) ∧
    (0 = 0 → mutatePath [0, 1, 2, 0] 1 2 0 =
      (List.set [0, 1, 2, 0] 1 (List.getD [0, 1, 2, 0] 2 0)).set 2
        (List.getD [0, 1, 2, 0] 1 0)) ∧
    (0 = 1 → mutatePath [0, 1, 2, 0] 1 2 0 =
      List.insertIdx 2 (List.getD [0, 1, 2, 0] 1 0) (List.eraseIdx [0, 1, 2, 0] 1))) :=
  ⟨by decide, mutate_operator_dispatch [0, 1, 2, 0] 1 2 0 (by decide)⟩

/-- C5: `calculate_fitness()` is pure — it returns the item with the path
unchanged, and a second call on that returned state yields the same
value. -/
theorem calculate_fitness_pure (c : CityItem) :
    (c.calculate_fitness).2 = c ∧
    ((c.calculate_fitness).2.calculate_fitness).1 = (c.calculate_fitness).1 :=
  ⟨rfl, rfl⟩

/-- C6: none of `mutate()`, `calculate_fitness()` and `reset()` changes
the shared city-coordinate list. -/
theorem cities_never_modified (c : CityItem) (index1 index2 operation : ℕ) :
    (c.mutate index1 index2 operation).cities = c.cities ∧
    ((c.calculate_fitness).2).cities = c.cities ∧
    (c.reset).cities = c.cities :=
  ⟨rfl, rfl, rfl⟩

/-- C3: `reset()` sets the path to the canonical initial genome — the
natural city order with the start city appended — which is exactly the
path `make_population` gives every individual, so fitness after a reset
equals the fitness of an untouched initial individual. -/
theorem reset_restores_initial (c : CityItem) (count : ℕ) (c0 : CityItem)
    (h : c0 ∈ make_population count c.cities) :
    (c.reset).path = List.range c.cities.length ++ [0] ∧
    (c.reset).path = c0.path ∧
    ((c.reset).calculate_fitness).1 = (c0.calculate_fitness).1 := by
  have h2 : c0 = ⟨List.range c.cities.length ++ [0], c.cities⟩ :=
    (List.eq_of_mem_replicate h)
  have h3 : c.reset = c0 := by rw [h2]; rfl
  exact ⟨rfl, by rw [h3], by rw [h3]⟩

/-- Witness for C3 with a two-city item whose path has been perturbed. -/
theorem reset_restores_initial_witness :
    (CityItem.mk [0, 1, 0] [((0 : ℝ), (0 : ℝ)), ((3 : ℝ), (4 : ℝ))]) ∈
      make_population 1 (CityItem.mk [0, 0, 1] [((0 : ℝ), (0 : ℝ)), ((3 : ℝ), (4 : ℝ))]).cities ∧
    ((CityItem.mk [0, 0, 1] [((0 : ℝ), (0 : ℝ)), ((3 : ℝ), (4 : ℝ))]).reset).path =
      (CityItem.mk [0, 1, 0] [((0 : ℝ), (0 : ℝ)), ((3 : ℝ), (4 : ℝ))]).path :=
  ⟨List.mem_replicate.mpr ⟨one_ne_zero, rfl⟩,
    (reset_restores_initial
      (CityItem.mk [0, 0, 1] [((0 : ℝ), (0 : ℝ)), ((3 : ℝ), (4 : ℝ))]) 1
      (CityItem.mk [0, 1, 0] [((0 : ℝ), (0 : ℝ)), ((3 : ℝ), (4 : ℝ))])
      (List.mem_replicate.mpr ⟨one_ne_zero, rfl⟩)).2.1⟩

/-- Cycling the rates `1..9` and taking `n` of them gives rate
`1 + k mod 9` at position `k`. -/
theorem cycle_take_range9 (n : ℕ) :
    cycle_take (List.range' 1 9) n = (List.range n).map (fun k => 1 + k % 9) := by
  unfold cycle_take
  have hf : (fun k => (List.range' 1 9)[k % (List.range' 1 9).length]?) =
      some ∘ (fun k => 1 + k % 9) := by
    funext k
    have h9 : (List.range' 1 9).length = 9 := by simp
    rw [h9]
    have hlt : k % 9 < 9 := Nat.mod_lt _ (by omega)
    simpa using List.getElem?_range' 1 1 hlt
  rw [hf, List.filterMap_eq_map]

/-- C7: every population built by `make_all_populations` carries the same
fixed mutation-rate schedule, of length equal to the individual count,
holding the rates 1 through 9 repeated cyclically. -/
theorem mutation_rate_cycled (individuals populations : ℕ) (cities : List (ℝ × ℝ))
    (pop : Population) (h : pop ∈ make_all_populations individuals populations cities) :
    pop.mutation_rate = cycle_take (List.range' 1 9) individuals ∧
    pop.mutation_rate.length = individuals ∧
    ∀ k, k < individuals → pop.mutation_rate[k]? = some (1 + k % 9) := by
  unfold make_all_populations at h
  obtain ⟨i, hi, rfl⟩ := List.mem_map.mp h
  refine ⟨rfl, ?_, ?_⟩
  · show (cycle_take (List.range' 1 9) individuals).length = individuals
    rw [cycle_take_range9]
    simp
  · intro k hk
    show (cycle_take (List.range' 1 9) individuals)[k]? = some (1 + k % 9)
    rw [cycle_take_range9, List.getElem?_map, List.getElem?_range hk]
    rfl

/-- Witness for C7 in a run with 3 individuals and 2 populations. -/
theorem mutation_rate_cycled_witness :
    (Population.mk 1 (make_population 3 []) (cycle_take (List.range' 1 9) 3)
      (100 * 1) (100 * 1) (1000 * 1)) ∈ make_all_populations 3 2 [] ∧
    (Population.mk 1 (make_population 3 []) (cycle_take (List.range' 1 9) 3)
      (100 * 1) (100 * 1) (1000 * 1)).mutation_rate.length = 3 := by
  have hmem : (Population.mk 1 (make_population 3 []) (cycle_take (List.range' 1 9) 3)
      (100 * 1) (100 * 1) (1000 * 1)) ∈ make_all_populations 3 2 [] := by
    unfold make_all_populations
    exact List.mem_map.mpr ⟨1, by decide, rfl⟩
  exact ⟨hmem, (mutation_rate_cycled 3 2 [] _ hmem).2.1⟩

/-- The capped escalation sequence never exceeds its cap. -/
theorem resetLimitSeq_le_stop (start inc stop : ℕ) (h : start ≤ stop) :
    ∀ k, resetLimitSeq start inc stop k ≤ stop := by
  intro k
  cases k with
  | zero => exact h
  | succ m => exact min_le_right _ _

/-- The capped escalation sequence is non-decreasing when it starts below
its cap. -/
theorem resetLimitSeq_mono (start inc stop : ℕ) (h : start ≤ stop) :
    ∀ k, resetLimitSeq start inc stop k ≤ resetLimitSeq start inc stop (k + 1) := by
  intro k
  show resetLimitSeq start inc stop k ≤ min (resetLimitSeq start inc stop k + inc) stop
  exact le_min (Nat.le_add_right _ _) (resetLimitSeq_le_stop start inc stop h k)

/-- C8: every population with ordinal id `i` built by
`make_all_populations` has `reset_limit_start = reset_limit_increment =
100 * i` and `reset_limit_end = 1000 * i`, so the start is at most the
end and the capped escalation sequence is non-decreasing and bounded by
`reset_limit_end`. -/
theorem reset_limits_scaled (individuals populations : ℕ) (cities : List (ℝ × ℝ))
    (pop : Population) (h : pop ∈ make_all_populations individuals populations cities) :
    pop.reset_limit_start = 100 * pop.id ∧
    pop.reset_limit_increment = 100 * pop.id ∧
    pop.reset_limit_end = 1000 * pop.id ∧
    1 ≤ pop.id ∧ pop.id ≤ populations ∧
    pop.reset_limit_start ≤ pop.reset_limit_end ∧
    (∀ k, resetLimitSeq pop.reset_limit_start pop.reset_limit_increment
        pop.reset_limit_end k ≤
      resetLimitSeq pop.reset_limit_start pop.reset_limit_increment
        pop.reset_limit_end (k + 1)) ∧
    (∀ k, resetLimitSeq pop.reset_limit_start pop.reset_limit_increment
        pop.reset_limit_end k ≤ pop.reset_limit_end) := by
  unfold make_all_populations at h
  obtain ⟨i, hi, rfl⟩ := List.mem_map.mp h
  have hid : 1 ≤ i ∧ i < 1 + populations := List.mem_range'_1.mp hi
  have hse : (100 * i : ℕ) ≤ 1000 * i := by omega
  exact ⟨rfl, rfl, rfl, hid.1, (by omega : i ≤ populations), hse,
    resetLimitSeq_mono _ _ _ hse, resetLimitSeq_le_stop _ _ _ hse⟩

/-- Witness for C8 at the first population of a two-population run. -/
theorem reset_limits_scaled_witness :
    (Population.mk 1 (make_population 3 []) (cycle_take (List.range' 1 9) 3)
      (100 * 1) (100 * 1) (1000 * 1)) ∈ make_all_populations 3 2 [] ∧
    (100 * 1 : ℕ) ≤ 1000 * 1 ∧
    resetLimitSeq (100 * 1) (100 * 1) (1000 * 1) 5 ≤ 1000 * 1 := by
  have hmem : (Population.mk 1 (make_population 3 []) (cycle_take (List.range' 1 9) 3)
      (100 * 1) (100 * 1) (1000 * 1)) ∈ make_all_populations 3 2 [] := by
    unfold make_all_populations
    exact List.mem_map.mpr ⟨1, by decide, rfl⟩
  have h := reset_limits_scaled 3 2 [] _ hmem
  exact ⟨hmem, h.2.2.2.2.2.1, h.2.2.2.2.2.2.2 5⟩

/-- When every draw equals `index1` the re-draw loop never exits,
whatever the fuel and the start position. -/
theorem index2_loop_none (s : ℕ → ℕ) (index1 : ℕ) (hall : ∀ k, s k = index1) :
    ∀ fuel k0, index2_loop s index1 fuel k0 = none := by
  intro fuel
  induction fuel with
  | zero => intro k0; rfl
  | succ m ih =>
    intro k0
    simp only [index2_loop, hall k0, if_pos]
    exact ih (k0 + 1)

/-- As soon as some later draw differs from `index1`, the re-draw loop
exits with a value that differs from `index1`. -/
theorem index2_loop_finds (s : ℕ → ℕ) (index1 : ℕ) :
    ∀ (m k0 : ℕ), s (k0 + m) ≠ index1 →
    ∃ fuel r, index2_loop s index1 fuel k0 = some r ∧ r ≠ index1 ∧ ∃ k, r = s k := by
  intro m
  induction m with
  | zero =>
    intro k0 h
    have h0 : s k0 ≠ index1 := by simpa using h
    exact ⟨1, s k0, by simp [index2_loop, h0], h0, k0, rfl⟩
  | succ m ih =>
    intro k0 h
    by_cases h0 : s k0 = index1
    · have h2 : s (k0 + 1 + m) ≠ index1 := by
        have he : k0 + 1 + m = k0 + (m + 1) := by omega
        rw [he]
        exact h
      obtain ⟨fuel, r, hr, hne, hk⟩ := ih (k0 + 1) h2
      exact ⟨fuel + 1, r, by simp [index2_loop, h0, hr], hne, hk⟩
    · exact ⟨1, s k0, by simp [index2_loop, h0], h0, k0, rfl⟩

/-- C9: with 2 cities the re-draw loop can never exit (the only drawable
index is 1, equal to `index1`, for any fuel and position); with at most 1
city the draw `gen_range(1, n)` is from an empty range and fails; with at
least 3 cities and a draw stream that is not eventually constant, the
loop exits with an index distinct from `index1` and inside `[1, n)`. -/
theorem index2_loop_termination :
    (∀ (s : ℕ → ℕ) (index1 : ℕ), (∀ k, gen_range_ok 1 2 (s k)) →
      gen_range_ok 1 2 index1 → ∀ fuel k0, index2_loop s index1 fuel k0 = none) ∧
    (∀ n, n ≤ 1 → ¬ gen_range_nonempty 1 n) ∧
    (∀ n (s : ℕ → ℕ) (index1 : ℕ), 3 ≤ n → (∀ k, gen_range_ok 1 n (s k)) →
      gen_range_ok 1 n index1 → ¬ eventually_const s →
      ∃ fuel r, index2_loop s index1 fuel 0 = some r ∧ r ≠ index1 ∧ gen_range_ok 1 n r) := by
  refine ⟨?_, ?_, ?_⟩
  · intro s index1 hs h1
    have hall : ∀ k, s k = index1 := by
      intro k
      obtain ⟨a1, a2⟩ := hs k
      obtain ⟨b1, b2⟩ := h1
      omega
    exact index2_loop_none s index1 hall
  · intro n hn
    unfold gen_range_nonempty
    omega
  · intro n s index1 hn hs h1 hec
    have hex : ∃ k, s k ≠ index1 := by
      by_contra hcon
      push_neg at hcon
      exact hec ⟨0, index1, fun k _ => hcon k⟩
    obtain ⟨k, hk⟩ := hex
    obtain ⟨fuel, r, hr, hne, k2, rfl⟩ :=
      index2_loop_finds s index1 k 0 (by simpa using hk)
    exact ⟨fuel, s k2, hr, hne, hs k2⟩

/-- Witness for C9: a constant stream never exits; `gen_range(1, 0)` has
an empty range; an alternating stream over 3 cities exits with a distinct
in-range index. -/
theorem index2_loop_termination_witness :
    (index2_loop (fun _ => 1) 1 5 0 = none) ∧
    (¬ gen_range_nonempty 1 0) ∧
    (∃ fuel r, index2_loop (fun k => 1 + k % 2) 1 fuel 0 = some r ∧ r ≠ 1 ∧
      gen_range_ok 1 3 r) := by
  refine ⟨index2_loop_termination.1 (fun _ => 1) 1
      (fun k => show gen_range_ok 1 2 1 by decide) (by decide) 5 0,
    index2_loop_termination.2.1 0 (by decide),
    index2_loop_termination.2.2 3 (fun k => 1 + k % 2) 1 (by omega)
      (fun k => show gen_range_ok 1 3 (1 + k % 2) from ⟨by omega, by omega⟩)
      (show gen_range_ok 1 3 1 by decide) ?_⟩
  rintro ⟨N, c, hc⟩
  have h1 : 1 + (2 * N) % 2 = c := hc (2 * N) (by omega)
  have h2 : 1 + (2 * N + 1) % 2 = c := hc (2 * N + 1) (by omega)
  omega

/-- The fitness fold computes the accumulator plus the walk from the
current previous index. -/
theorem fitness_foldl (cities : List (ℝ × ℝ)) :
    ∀ (l : List ℕ) (acc : ℝ) (prev : ℕ),
    (l.foldl (fun st index => (st.1 + city_distance cities st.2 index, index)) (acc, prev)).1 =
      acc + tour_from cities prev l := by
  intro l
  induction l with
  | nil => intro acc prev; simp [tour_from]
  | cons x xs ih =>
    intro acc prev
    show (xs.foldl _ (acc + city_distance cities prev x, x)).1 = _
    rw [ih]
    simp only [tour_from]
    ring

/-- The consecutive-entries sum of a nonempty path is the walk from its
first entry. -/
theorem spec_tour_length_cons (cities : List (ℝ × ℝ)) :
    ∀ (rest : List ℕ) (a : ℕ),
    spec_tour_length cities (a :: rest) = tour_from cities a rest := by
  intro rest
  induction rest with
  | nil => intro a; simp [spec_tour_length, tour_from]
  | cons b rs ih =>
    intro a
    simp only [spec_tour_length, tour_from]
    rw [ih b]

/-- C2 amended: `calculate_fitness()` returns the sum of the distances
between consecutive path entries PLUS one additional edge, from the city
with the highest index (`cities.len() - 1`, the initial value of
`prev_index`) to the first path entry. -/
theorem calculate_fitness_adds_wrap_edge (cities : List (ℝ × ℝ)) (a : ℕ) (rest : List ℕ) :
    (CityItem.calculate_fitness ⟨a :: rest, cities⟩).1 =
      city_distance cities (cities.length - 1) a + spec_tour_length cities (a :: rest) := by
  show ((a :: rest).foldl _ ((0 : ℝ), cities.length - 1)).1 = _
  rw [fitness_foldl, spec_tour_length_cons]
  simp only [tour_from]
  ring

/-- Square root of 25. -/
theorem sqrt_twentyfive : Real.sqrt 25 = 5 := by
  rw [show (25 : ℝ) = 5 ^ 2 by norm_num]
  exact Real.sqrt_sq (by norm_num)

/-- In the two-city instance at (0,0) and (3,4) the distance from city 0
to city 1 is 5. -/
theorem dist01_eval :
    city_distance [((0 : ℝ), (0 : ℝ)), ((3 : ℝ), (4 : ℝ))] 0 1 = 5 := by
  unfold city_distance
  simp only [List.getD]
  norm_num [sqrt_twentyfive]

/-- In the two-city instance at (0,0) and (3,4) the distance from city 1
to city 0 is 5. -/
theorem dist10_eval :
    city_distance [((0 : ℝ), (0 : ℝ)), ((3 : ℝ), (4 : ℝ))] 1 0 = 5 := by
  unfold city_distance
  simp only [List.getD]
  norm_num [sqrt_twentyfive]

/-- C2 counterexample: with two cities at (0,0) and (3,4) and the path
[0, 1, 0], the consecutive-entries sum is 10, but the code returns 15 —
it adds the edge from city `cities.len() - 1 = 1` to `path[0] = 0` before
walking the path, so the claim that no additional edge is included is
false. -/
theorem calculate_fitness_not_plain_sum :
    (CityItem.calculate_fitness
        ⟨[0, 1, 0], [((0 : ℝ), (0 : ℝ)), ((3 : ℝ), (4 : ℝ))]⟩).1 ≠
      spec_tour_length [((0 : ℝ), (0 : ℝ)), ((3 : ℝ), (4 : ℝ))] [0, 1, 0] := by
  have hL : (CityItem.calculate_fitness
      ⟨[0, 1, 0], [((0 : ℝ), (0 : ℝ)), ((3 : ℝ), (4 : ℝ))]⟩).1 = 15 := by
    show (([0, 1, 0] : List ℕ).foldl _
      ((0 : ℝ), ([((0 : ℝ), (0 : ℝ)), ((3 : ℝ), (4 : ℝ))] : List (ℝ × ℝ)).length - 1)).1 = 15
    rw [fitness_foldl]
    rw [show ([((0 : ℝ), (0 : ℝ)), ((3 : ℝ), (4 : ℝ))] : List (ℝ × ℝ)).length - 1 = 1 from rfl]
    simp only [tour_from]
    rw [dist10_eval, dist01_eval]
    norm_num
  have hR : spec_tour_length [((0 : ℝ), (0 : ℝ)), ((3 : ℝ), (4 : ℝ))] [0, 1, 0] = 10 := by
    simp only [spec_tour_length]
    rw [dist01_eval, dist10_eval]
    norm_num
  rw [hL, hR]
  norm_num
